import Mathlib

/-!
Verification of the dedit-react-editor document-conversion backend.

The repository ships a backend `parser` package whose public surface is the
file `src/backend/parser/__init__.py`; the conversion pipeline itself
(archive reading, style/numbering resolution, document-model building,
comment anchoring and target projection) is specified in `spec.md` but its
submodules (`docx_parser`, `tiptap_converter`, `comments_parser`) are not in
the visible source tree.  The definitions below therefore fall into two
groups:

* the export surface of `src/backend/parser/__init__.py`, embedded directly
  from that file; and
* the conversion pipeline, each definition carrying a doc comment starting
  with `Modelled from the spec:` naming the missing submodule it stands for.

All definitions are executable; theorems about the claims of the
specification follow after the definitions.
-/

/-! ## The export surface of `src/backend/parser/__init__.py` -/

/-- The `__all__` list of `src/backend/parser/__init__.py`, in source order:
`__all__ = ["parse_docx", "to_tiptap", "comments_to_dict"]`. -/
def parserAll : List String :=
  ["parse_docx", "to_tiptap", "comments_to_dict"]

/-- The re-export table of `src/backend/parser/__init__.py`: each exported
name paired with the submodule the `from .<submodule> import <name>` line
pulls it from. -/
def parserReexports : List (String × String) :=
  [("comments_to_dict", "comments_parser"),
   ("parse_docx", "docx_parser"),
   ("to_tiptap", "tiptap_converter")]

/-- Lookup in an association list by key (first match wins). -/
def alistFind (k : String) (l : List (String × String)) : Option String :=
  match l.find? (fun p => p.1 == k) with
  | none => none
  | some p => some p.2

/-! ## Data model (spec §3)

Modelled from the spec: the data model of the missing `docx_parser` and
`tiptap_converter` submodules.  Machine text is `List Char`; attribute
mappings are association lists. -/

/-- Modelled from the spec: a Run's resolved mark set
(bold/italic/underline/strike/super-sub-script/color/link-target), spec §3. -/
inductive RunMark where
  | bold : RunMark
  | italic : RunMark
  | underline : RunMark
  | strike : RunMark
  | superscript : RunMark
  | subscript : RunMark
  | color : String → RunMark
  | link : String → RunMark
deriving DecidableEq

/-- Modelled from the spec: a mark on a target text node is either a
formatting mark from the Run's resolved mark set or a "comment" mark
carrying the comment id (spec §4.8). -/
inductive Mark where
  | fmt : RunMark → Mark
  | comment : Nat → Mark
deriving DecidableEq

/-- Modelled from the spec: a Run — literal text plus resolved mark set,
owned by exactly one Paragraph (spec §3). -/
structure Run where
  text : List Char
  marks : List RunMark
deriving DecidableEq

/-- Modelled from the spec: a Paragraph — ordered runs plus paragraph-level
attributes; the builder attaches the resolved heading level (from the
paragraph style, spec §4.8) and the list id + level (spec §3). -/
structure Paragraph where
  runs : List Run
  headingLevel : Option Nat
  listId : Option Nat
  listLevel : Nat
deriving DecidableEq

/-- Modelled from the spec: a Block is a sum over
{Paragraph, Table, Image, PageBreak}; a Table owns ordered rows of ordered
cells, and each cell owns an ordered sequence of Block (spec §3). -/
inductive Block where
  | para : Paragraph → Block
  | table : List (List (List Block)) → Block
  | image : String → Block
  | pageBreak : Block

/-- Modelled from the spec: a StyleDefinition — id, kind, weak `basedOn`
reference by id, property mapping, is-default flag (spec §3). -/
structure StyleDefinition where
  id : String
  kind : String
  basedOn : Option String
  props : List (String × String)
  isDefault : Bool
deriving DecidableEq

/-- Modelled from the spec: one level of a NumberingDefinition —
marker format, start value, indent (spec §3). -/
structure NumLevel where
  format : String
  startValue : Nat
  indent : Nat
deriving DecidableEq

/-- Modelled from the spec: a NumberingDefinition — id plus ordered levels
(spec §3). -/
structure NumberingDefinition where
  id : Nat
  levels : List NumLevel
deriving DecidableEq

/-- Modelled from the spec: a CommentRecord — id, author, date, plain-text
body, nullable parent id (spec §3). -/
structure CommentRecord where
  id : Nat
  author : String
  date : String
  text : String
  parentId : Option Nat
deriving DecidableEq

/-- Modelled from the spec: a CommentAnchor for one comment id.  Spec §3
stores structural coordinates and §9 resolves them to flat character
offsets at projection time; the model here carries the already-flattened
offsets `start`/`stop` into the document text, a half-open range
`[start, stop)` matching the `from`/`to` offsets of spec §6. -/
structure CommentAnchor where
  commentId : Nat
  start : Nat
  stop : Nat
deriving DecidableEq

/-- Modelled from the spec: the DocumentModel — top-level blocks, style
mapping, numbering mapping, comment mapping and comment anchors, built once
and immutable (spec §3). -/
structure DocumentModel where
  blocks : List Block
  styles : List StyleDefinition
  numbering : List NumberingDefinition
  comments : List (Nat × CommentRecord)
  anchors : List CommentAnchor

/-- Modelled from the spec: a TargetNode — a container node with type tag,
attribute mapping and ordered children, or a text leaf carrying a literal
string plus an ordered sequence of marks (spec §3).  Attribute values are
numeric (heading level, list id, list level); string-valued attributes are
not needed by any property below. -/
inductive TargetNode where
  | node : String → List (String × Nat) → List TargetNode → TargetNode
  | text : List Char → List Mark → TargetNode

/-! ## Style Resolver (spec §4.3)

Modelled from the spec: the style-resolution logic of the missing
`docx_parser` submodule. -/

/-- Modelled from the spec: the cap on `basedOn` chain walking
("e.g., 64 hops", spec §4.3). -/
def styleCap : Nat := 64

/-- Modelled from the spec: walk the `basedOn` chain from a style id up
through ancestors, collecting the visited definitions most-specific-first;
the walk consumes one unit of fuel per hop so a cyclic chain stops at the
cap instead of looping (spec §4.3). -/
def styleChain (styles : List StyleDefinition) : Nat → String → List StyleDefinition
  | 0, _ => []
  | fuel + 1, sid =>
    match styles.find? (fun d => d.id == sid) with
    | none => []
    | some d =>
      match d.basedOn with
      | none => [d]
      | some parentId => d :: styleChain styles fuel parentId

/-- Modelled from the spec: merged property mapping of a chain, applied
least-specific-first so more specific layers override earlier ones
(spec §4.3).  The mapping is an association list where the first binding of
a key wins, so prepending a layer overrides everything after it. -/
def applyChain (chain : List StyleDefinition) : List (String × String) :=
  chain.reverse.foldl (fun acc d => d.props ++ acc) []

/-- Modelled from the spec: `resolve(styleId) → merged property mapping`
(spec §4.3); the chain walk is capped at `styleCap` hops and whatever has
been accumulated by then is returned. -/
def resolveStyle (styles : List StyleDefinition) (sid : String) : List (String × String) :=
  applyChain (styleChain styles styleCap sid)

/-! ## Numbering Resolver (spec §4.4)

Modelled from the spec: the numbering-resolution logic of the missing
`docx_parser` submodule. -/

/-- Modelled from the spec: per-list running counters keyed by list id and
level (spec §4.4); `none` means the level's counter has not run since its
last reset, so its next use yields the level's start value. -/
def NumState : Type := Nat → Nat → Option Nat

/-- Modelled from the spec: the counter state at the start of a traversal —
no counter has run. -/
def emptyNumState : NumState := fun _ _ => none

/-- Modelled from the spec: the start value of a level of a numbering
definition, defaulting to 1 when the definition or level is unknown. -/
def numStart (defs : List NumberingDefinition) (lid lvl : Nat) : Nat :=
  match defs.find? (fun d => d.id == lid) with
  | none => 1
  | some d =>
    match d.levels.get? lvl with
    | none => 1
    | some L => L.startValue

/-- Modelled from the spec:
`resolve(listId, level) → marker value` (spec §4.4) — increments the
level's counter on each use (starting from the level's start value) and
resets all deeper sub-level counters of the same list whenever this level's
counter advances; returns the computed marker value and the new state. -/
def resolveNum (defs : List NumberingDefinition) (s : NumState) (lid lvl : Nat) :
    Nat × NumState :=
  let v : Nat :=
    match s lid lvl with
    | some c => c + 1
    | none => numStart defs lid lvl
  (v, fun i l =>
    if i = lid ∧ l = lvl then some v
    else if i = lid ∧ lvl < l then none
    else s i l)

/-- Modelled from the spec: run a sequence of `(listId, level)` resolver
calls in traversal order, threading the counter state. -/
def runNumCalls (defs : List NumberingDefinition) (s : NumState) :
    List (Nat × Nat) → NumState
  | [] => s
  | c :: cs => runNumCalls defs (resolveNum defs s c.1 c.2).2 cs

/-! ## Text lengths

Modelled from the spec: flattened character extents used to resolve
structural coordinates to flat offsets at projection time (spec §9). -/

/-- Modelled from the spec: total text length of a list of runs. -/
def runsLen : List Run → Nat
  | [] => 0
  | r :: rs => r.text.length + runsLen rs

/-- Modelled from the spec: total text length of a paragraph. -/
def paraLen (p : Paragraph) : Nat := runsLen p.runs

mutual

/-- Modelled from the spec: total text length of a block. -/
def blockLen : Block → Nat
  | .para p => paraLen p
  | .table rows => rowsLen rows
  | .image _ => 0
  | .pageBreak => 0

/-- Modelled from the spec: total text length of table rows. -/
def rowsLen : List (List (List Block)) → Nat
  | [] => 0
  | r :: rs => cellsLen r + rowsLen rs

/-- Modelled from the spec: total text length of the cells of a row. -/
def cellsLen : List (List Block) → Nat
  | [] => 0
  | c :: cs => blocksLen c + cellsLen cs

/-- Modelled from the spec: total text length of a block sequence. -/
def blocksLen : List Block → Nat
  | [] => 0
  | b :: bs => blockLen b + blocksLen bs

end

/-! ## Per-character comment annotation (spec §4.8)

Modelled from the spec: the `tiptap_converter` submodule attaches to every
character of a Run the Run's formatting marks plus one "comment" mark for
every CommentAnchor whose half-open range contains the character's flat
offset. -/

/-- Modelled from the spec: the comment marks applying at one flat
character offset — one `comment` mark per anchor whose range `[start, stop)`
contains the offset (spec §4.8). -/
def commentMarksAt (anchors : List CommentAnchor) (pos : Nat) : List Mark :=
  anchors.filterMap fun a =>
    if a.start ≤ pos ∧ pos < a.stop then some (Mark.comment a.commentId) else none

/-- Modelled from the spec: annotate each character of a text, starting at
a given flat offset, with a base mark list plus the comment marks applying
at the character's offset. -/
def annotateChars (anchors : List CommentAnchor) (base : List Mark) :
    Nat → List Char → List (Char × List Mark)
  | _, [] => []
  | pos, c :: cs =>
    (c, base ++ commentMarksAt anchors pos) :: annotateChars anchors base (pos + 1) cs

/-- Modelled from the spec: annotate a Run's characters with its resolved
marks plus applicable comment marks (spec §4.8). -/
def annotateRun (anchors : List CommentAnchor) (off : Nat) (r : Run) :
    List (Char × List Mark) :=
  annotateChars anchors (r.marks.map Mark.fmt) off r.text

/-- Modelled from the spec: annotate a run sequence, threading the flat
offset left to right. -/
def annotateRuns (anchors : List CommentAnchor) : Nat → List Run → List (Char × List Mark)
  | _, [] => []
  | off, r :: rs => annotateRun anchors off r ++ annotateRuns anchors (off + r.text.length) rs

mutual

/-- Modelled from the spec: the annotated characters of a block in document
order. -/
def annotateBlock (anchors : List CommentAnchor) (off : Nat) : Block → List (Char × List Mark)
  | .para p => annotateRuns anchors off p.runs
  | .table rows => annotateRows anchors off rows
  | .image _ => []
  | .pageBreak => []

/-- Modelled from the spec: the annotated characters of table rows. -/
def annotateRows (anchors : List CommentAnchor) (off : Nat) :
    List (List (List Block)) → List (Char × List Mark)
  | [] => []
  | r :: rs => annotateCells anchors off r ++ annotateRows anchors (off + cellsLen r) rs

/-- Modelled from the spec: the annotated characters of a row's cells. -/
def annotateCells (anchors : List CommentAnchor) (off : Nat) :
    List (List Block) → List (Char × List Mark)
  | [] => []
  | c :: cs => annotateBlocks anchors off c ++ annotateCells anchors (off + blocksLen c) cs

/-- Modelled from the spec: the annotated characters of a block sequence. -/
def annotateBlocks (anchors : List CommentAnchor) (off : Nat) :
    List Block → List (Char × List Mark)
  | [] => []
  | b :: bs => annotateBlock anchors off b ++ annotateBlocks anchors (off + blockLen b) bs

end

/-! ## Splitting runs into text nodes (spec §4.8)

Modelled from the spec: a Run crossing comment-range boundaries is split
into multiple text nodes, since target text leaves cannot carry
heterogeneous marks within a single node; adjacent characters with
identical mark lists are kept in one node (the mark set changes exactly at
comment-range boundaries inside a Run, and merging spans with identical
marks is the optional projector-level optimization of spec §3). -/

/-- Modelled from the spec: prepend one annotated character to a list of
text nodes, extending the first node when its marks coincide. -/
def chunkStep (p : Char × List Mark) (acc : List TargetNode) : List TargetNode :=
  match acc with
  | TargetNode.text cs ms :: rest =>
    if p.2 = ms then TargetNode.text (p.1 :: cs) ms :: rest
    else TargetNode.text [p.1] p.2 :: acc
  | _ => TargetNode.text [p.1] p.2 :: acc

/-- Modelled from the spec: split an annotated character sequence into text
nodes of homogeneous marks (spec §4.8). -/
def chunk (l : List (Char × List Mark)) : List TargetNode :=
  l.foldr chunkStep []

/-- Modelled from the spec: the text nodes a Run projects to (spec §4.8). -/
def projectRun (anchors : List CommentAnchor) (off : Nat) (r : Run) : List TargetNode :=
  chunk (annotateRun anchors off r)

/-- Modelled from the spec: the text nodes of a run sequence, threading the
flat offset. -/
def projectRuns (anchors : List CommentAnchor) : Nat → List Run → List TargetNode
  | _, [] => []
  | off, r :: rs => projectRun anchors off r ++ projectRuns anchors (off + r.text.length) rs

/-! ## Target Projector (spec §4.8)

Modelled from the spec: the missing `tiptap_converter` submodule. -/

/-- Modelled from the spec: the marker format of a numbering definition's
level, defaulting to a decimal (ordered) format when unknown. -/
def levelFormat (nums : List NumberingDefinition) (lid lvl : Nat) : String :=
  match nums.find? (fun d => d.id == lid) with
  | none => "decimal"
  | some d =>
    match d.levels.get? lvl with
    | none => "decimal"
    | some L => L.format

/-- Modelled from the spec: the list-node type for a list id and level —
ordered or unordered per the numbering definition's marker format
(spec §4.8). -/
def listTypeOf (nums : List NumberingDefinition) (lid lvl : Nat) : String :=
  if levelFormat nums lid lvl = "bullet" then "bulletList" else "orderedList"

/-- Modelled from the spec: the attributes of a list node record its list
id and level, the key by which consecutive sibling list paragraphs are
merged into one list node (spec §4.8). -/
def listAttrs (lid lvl : Nat) : List (String × Nat) := [("listId", lid), ("level", lvl)]

/-- Modelled from the spec: the paragraph or heading node of a paragraph —
a style resolved as a heading of level N yields a heading node with that
level, otherwise a paragraph node (spec §4.8). -/
def paraNode (anchors : List CommentAnchor) (off : Nat) (p : Paragraph) : TargetNode :=
  match p.headingLevel with
  | some n => TargetNode.node "heading" [("level", n)] (projectRuns anchors off p.runs)
  | none => TargetNode.node "paragraph" [] (projectRuns anchors off p.runs)

/-- Modelled from the spec: the listItem node wrapping a list paragraph
(spec §4.8). -/
def listItemNode (anchors : List CommentAnchor) (off : Nat) (p : Paragraph) : TargetNode :=
  TargetNode.node "listItem" [] [paraNode anchors off p]

/-- Whether a target node type tag is a list container. -/
def isListNodeType (t : String) : Bool := t == "bulletList" || t == "orderedList"

/-- Modelled from the spec: prepend a projected node to already-projected
siblings, merging two adjacent list nodes that agree on type and
attributes (hence on list id and level) into one list node — consecutive
sibling paragraphs sharing the same list id and level end up as children of
one list node rather than as separate adjacent lists (spec §4.8). -/
def consMerge : TargetNode → List TargetNode → List TargetNode
  | TargetNode.node t a cs, TargetNode.node t2 a2 cs2 :: rest =>
    if isListNodeType t ∧ t = t2 ∧ a = a2 then TargetNode.node t a (cs ++ cs2) :: rest
    else TargetNode.node t a cs :: TargetNode.node t2 a2 cs2 :: rest
  | n, acc => n :: acc

mutual

/-- Modelled from the spec: project one block to a target node (spec §4.8);
a paragraph carrying a list id is wrapped in a list node containing a
listItem node. -/
def projectBlock (nums : List NumberingDefinition) (anchors : List CommentAnchor)
    (off : Nat) : Block → TargetNode
  | .para p =>
    match p.listId with
    | some lid =>
      TargetNode.node (listTypeOf nums lid p.listLevel) (listAttrs lid p.listLevel)
        [listItemNode anchors off p]
    | none => paraNode anchors off p
  | .table rows => TargetNode.node "table" [] (projectRows nums anchors off rows)
  | .image _ => TargetNode.node "image" [] []
  | .pageBreak => TargetNode.node "hardBreak" [] []

/-- Modelled from the spec: project table rows (spec §4.8). -/
def projectRows (nums : List NumberingDefinition) (anchors : List CommentAnchor)
    (off : Nat) : List (List (List Block)) → List TargetNode
  | [] => []
  | r :: rs =>
    TargetNode.node "tableRow" [] (projectCells nums anchors off r) ::
      projectRows nums anchors (off + cellsLen r) rs

/-- Modelled from the spec: project a row's cells, recursively projecting
cell content with the same rules (spec §4.8). -/
def projectCells (nums : List NumberingDefinition) (anchors : List CommentAnchor)
    (off : Nat) : List (List Block) → List TargetNode
  | [] => []
  | c :: cs =>
    TargetNode.node "tableCell" [] (projectBlocks nums anchors off c) ::
      projectCells nums anchors (off + blocksLen c) cs

/-- Modelled from the spec: project a block sequence, merging adjacent list
nodes of equal list id and level (spec §4.8). -/
def projectBlocks (nums : List NumberingDefinition) (anchors : List CommentAnchor)
    (off : Nat) : List Block → List TargetNode
  | [] => []
  | b :: bs =>
    consMerge (projectBlock nums anchors off b)
      (projectBlocks nums anchors (off + blockLen b) bs)

end

/-- Modelled from the spec: the Target Projector's output for a whole
DocumentModel — the `{type:"doc", content:[...]}` value of spec §6.  The
projection is a pure function of the model: all traversal state (the flat
character offset) is passed explicitly, and each invocation starts from
offset 0 with no state surviving from earlier invocations (spec §5, §9). -/
def projectDoc (m : DocumentModel) : TargetNode :=
  TargetNode.node "doc" [] (projectBlocks m.numbering m.anchors 0 m.blocks)

/-- Modelled from the spec: projecting a batch of models in sequence; each
conversion uses its own resolver state, so the runs are independent
(spec §5). -/
def projectSeq (ms : List DocumentModel) : List TargetNode :=
  ms.map projectDoc

mutual

/-- Modelled from the spec: every character of a target tree paired with
its marks, in document order. -/
def flatNode : TargetNode → List (Char × List Mark)
  | .text cs ms => cs.map (fun c => (c, ms))
  | .node _ _ children => flatNodes children

/-- Modelled from the spec: the annotated characters of a node sequence. -/
def flatNodes : List TargetNode → List (Char × List Mark)
  | [] => []
  | n :: ns => flatNode n ++ flatNodes ns

end

mutual

/-- Modelled from the spec: the concatenated contents of all text nodes of
a target tree, in document order (spec §8, text preservation). -/
def docText : TargetNode → List Char
  | .text cs _ => cs
  | .node _ _ children => docTexts children

/-- Modelled from the spec: the concatenated text-node contents of a node
sequence. -/
def docTexts : List TargetNode → List Char
  | [] => []
  | n :: ns => docText n ++ docTexts ns

end

/-- Modelled from the spec: the concatenated text of a run sequence. -/
def runsText : List Run → List Char
  | [] => []
  | r :: rs => r.text ++ runsText rs

mutual

/-- Modelled from the spec: the concatenated Run text of a block, in
document order (spec §8, text preservation). -/
def blockText : Block → List Char
  | .para p => runsText p.runs
  | .table rows => rowsText rows
  | .image _ => []
  | .pageBreak => []

/-- Modelled from the spec: the concatenated Run text of table rows. -/
def rowsText : List (List (List Block)) → List Char
  | [] => []
  | r :: rs => cellsText r ++ rowsText rs

/-- Modelled from the spec: the concatenated Run text of a row's cells. -/
def cellsText : List (List Block) → List Char
  | [] => []
  | c :: cs => blocksText c ++ cellsText cs

/-- Modelled from the spec: the concatenated Run text of a block
sequence. -/
def blocksText : List Block → List Char
  | [] => []
  | b :: bs => blockText b ++ blocksText bs

end

/-! ## Error taxonomy and conversion pipeline (spec §4.1, §4.6, §7)

Modelled from the spec: the fatal error taxonomy and the missing
`docx_parser` pipeline around it. -/

/-- Modelled from the spec: the fatal error taxonomy of spec §7 —
`ArchiveError` for an unreadable or invalid container,
`MalformedXmlError` for an unparsable required part, and
`CorruptDocumentError` for cycle or size-cap violations. -/
inductive ConvError where
  | archiveError : ConvError
  | malformedXml : ConvError
  | corruptDocument : ConvError
deriving DecidableEq

/-- Modelled from the spec: the raw body tree handed to the Document Model
Builder, mirroring the Block shapes with tables of rows of cells of nested
raw blocks (spec §4.6); paragraph payloads arrive with their resolved
attributes already attached. -/
inductive RawBlock where
  | rawPara : Paragraph → RawBlock
  | rawTable : List (List (List RawBlock)) → RawBlock
  | rawImage : String → RawBlock
  | rawBreak : RawBlock

mutual

/-- Modelled from the spec: the table-nesting depth of a raw block — each
table contributes one level of block nesting (spec §3). -/
def rawBlockDepth : RawBlock → Nat
  | .rawPara _ => 0
  | .rawTable rows => 1 + rawRowsDepth rows
  | .rawImage _ => 0
  | .rawBreak => 0

/-- Modelled from the spec: the maximal nesting depth of table rows. -/
def rawRowsDepth : List (List (List RawBlock)) → Nat
  | [] => 0
  | r :: rs => max (rawCellsDepth r) (rawRowsDepth rs)

/-- Modelled from the spec: the maximal nesting depth of a row's cells. -/
def rawCellsDepth : List (List RawBlock) → Nat
  | [] => 0
  | c :: cs => max (rawBlocksDepth c) (rawCellsDepth cs)

/-- Modelled from the spec: the maximal nesting depth of a raw block
sequence. -/
def rawBlocksDepth : List RawBlock → Nat
  | [] => 0
  | b :: bs => max (rawBlockDepth b) (rawBlocksDepth bs)

end

/-- Modelled from the spec: the safety cap on block nesting — 64
(spec §3). -/
def maxNestingDepth : Nat := 64

mutual

/-- Modelled from the spec: the Document Model Builder on one raw block,
with the remaining nesting budget; entering a table with an exhausted
budget is the fatal `CorruptDocumentError`, never silent truncation
(spec §3, §4.6). -/
def buildBlock : Nat → RawBlock → Except ConvError Block
  | _, .rawPara p => .ok (.para p)
  | _, .rawImage s => .ok (.image s)
  | _, .rawBreak => .ok .pageBreak
  | d, .rawTable rows =>
    match d with
    | 0 => .error .corruptDocument
    | d + 1 =>
      match buildRows d rows with
      | .error e => .error e
      | .ok built => .ok (.table built)

/-- Modelled from the spec: build table rows under a nesting budget. -/
def buildRows : Nat → List (List (List RawBlock)) → Except ConvError (List (List (List Block)))
  | _, [] => .ok []
  | d, r :: rs =>
    match buildCells d r, buildRows d rs with
    | .ok c, .ok cs => .ok (c :: cs)
    | .error e, _ => .error e
    | _, .error e => .error e

/-- Modelled from the spec: build a row's cells under a nesting budget. -/
def buildCells : Nat → List (List RawBlock) → Except ConvError (List (List Block))
  | _, [] => .ok []
  | d, c :: cs =>
    match buildBlocks d c, buildCells d cs with
    | .ok b, .ok bs => .ok (b :: bs)
    | .error e, _ => .error e
    | _, .error e => .error e

/-- Modelled from the spec: build a raw block sequence under a nesting
budget. -/
def buildBlocks : Nat → List RawBlock → Except ConvError (List Block)
  | _, [] => .ok []
  | d, b :: bs =>
    match buildBlock d b, buildBlocks d bs with
    | .ok x, .ok xs => .ok (x :: xs)
    | .error e, _ => .error e
    | _, .error e => .error e

end

/-- Modelled from the spec: the Document Model Builder's single traversal
of the body tree, producing the DocumentModel with the nesting budget set
to the safety cap (spec §4.6). -/
def buildModel (raws : List RawBlock) : Except ConvError DocumentModel :=
  match buildBlocks maxNestingDepth raws with
  | .error e => .error e
  | .ok bs => .ok ⟨bs, [], [], [], []⟩

/-- Modelled from the spec: the plain comment mapping of spec §6 — author,
date, text, parent id and the `{from, to}` anchor ranges of one comment. -/
structure CommentOut where
  author : String
  date : String
  text : String
  parentId : Option Nat
  anchorRanges : List (Nat × Nat)
deriving DecidableEq

/-- Modelled from the spec: the comment mapping output — a structural copy
of each CommentRecord together with its anchors' flat offsets (spec §6). -/
def commentsOut (m : DocumentModel) : List (Nat × CommentOut) :=
  m.comments.map fun p =>
    (p.1, ⟨p.2.author, p.2.date, p.2.text, p.2.parentId,
      m.anchors.filterMap fun a =>
        if a.commentId = p.1 then some (a.start, a.stop) else none⟩)

/-- Modelled from the spec: read a fixed number of bytes from a buffer,
returning them and the remainder, or nothing when the buffer is too
short. -/
def readBytes : Nat → List Nat → Option (List Nat × List Nat)
  | 0, bs => some ([], bs)
  | _ + 1, [] => none
  | n + 1, b :: bs =>
    match readBytes n bs with
    | none => none
    | some (xs, rest) => some (b :: xs, rest)

/-- Modelled from the spec: decode the multi-part container — a sequence of
parts, each a length-prefixed name followed by length-prefixed content
(spec §4.1); fuel bounds the number of parts.  `none` means the buffer is
not a valid container. -/
def decodeParts : Nat → List Nat → Option (List (List Nat × List Nat))
  | _, [] => some []
  | 0, _ :: _ => none
  | fuel + 1, nameLen :: bs =>
    match readBytes nameLen bs with
    | none => none
    | some (name, r1) =>
      match r1 with
      | [] => none
      | contentLen :: r2 =>
        match readBytes contentLen r2 with
        | none => none
        | some (content, r3) =>
          match decodeParts fuel r3 with
          | none => none
          | some rest => some ((name, content) :: rest)

/-- Modelled from the spec: the Archive Reader's container decoding —
`open(bytes)` exposes named parts as byte buffers, or fails on an invalid
container (spec §4.1). -/
def decodeArchive (buf : List Nat) : Option (List (List Nat × List Nat)) :=
  decodeParts buf.length buf

/-- Modelled from the spec: the name of the mandatory body part. -/
def bodyPartName : List Nat := [98, 111, 100, 121]

/-- Find a named part in a decoded container. -/
def findPart (parts : List (List Nat × List Nat)) (name : List Nat) : Option (List Nat) :=
  match parts.find? (fun p => p.1 == name) with
  | none => none
  | some p => some p.2

/-- Modelled from the spec: the Archive Reader — fails with `ArchiveError`
if the buffer is not a valid container or the mandatory body part is
missing (spec §4.1). -/
def openDocx (buf : List Nat) : Except ConvError (List (List Nat × List Nat)) :=
  match decodeArchive buf with
  | none => .error .archiveError
  | some parts =>
    match findPart parts bodyPartName with
    | none => .error .archiveError
    | some _ => .ok parts

/-- Decode one byte to a character. -/
def byteChar (n : Nat) : Char := Char.ofNat n

/-- Modelled from the spec: decode the body part's bytes into the raw body
tree handed to the builder (the XML Part Parser stage of spec §4.2, here a
plain text body). -/
def decodeBody (bs : List Nat) : List RawBlock :=
  [RawBlock.rawPara ⟨[⟨bs.map byteChar, []⟩], none, none, 0⟩]

/-- Modelled from the spec: the conversion stages after the Archive Reader —
build the DocumentModel from the body tree and emit both outputs together;
a fatal builder error aborts with no partial output (spec §6, §7). -/
def convertFromBody (raws : List RawBlock) :
    Except ConvError (TargetNode × List (Nat × CommentOut)) :=
  match buildModel raws with
  | .error e => .error e
  | .ok m => .ok (projectDoc m, commentsOut m)

/-- Modelled from the spec: the core's single entry point as spec §6
describes it — a raw document buffer in, both outputs (projected tree and
comment mapping) together out, or a fatal error with no partial output. -/
def convert (buf : List Nat) : Except ConvError (TargetNode × List (Nat × CommentOut)) :=
  match openDocx buf with
  | .error e => .error e
  | .ok parts => convertFromBody (decodeBody ((findPart parts bodyPartName).getD []))

/-! ## Auxiliary predicates and fixtures -/

/-- A mark list containing no comment mark — the shape of a Run's resolved
formatting marks (spec §3). -/
def CommentFree (ms : List Mark) : Prop := ∀ cid : Nat, Mark.comment cid ∉ ms

/-- Every entry of an annotated character list carries, beyond some
comment-free base marks, exactly the comment marks applying at its flat
offset. -/
def AnnotatedAt (anchors : List CommentAnchor) (off : Nat)
    (l : List (Char × List Mark)) : Prop :=
  ∀ i p, l[i]? = some p →
    ∃ base, CommentFree base ∧ p.2 = base ++ commentMarksAt anchors (off + i)

/-- Modelled from the spec: the grouping key of a block — the list id and
level when the block is a list paragraph (spec §4.8). -/
def blockListKey : Block → Option (Nat × Nat)
  | .para p =>
    match p.listId with
    | some lid => some (lid, p.listLevel)
    | none => none
  | _ => none

/-- Modelled from the spec: the listItem children of one merged list node,
one per grouped paragraph, at their running flat offsets (spec §4.8). -/
def listItems (anchors : List CommentAnchor) : Nat → List Paragraph → List TargetNode
  | _, [] => []
  | off, p :: ps => listItemNode anchors off p :: listItems anchors (off + paraLen p) ps

/-- Total text length of a paragraph sequence. -/
def parasLen : List Paragraph → Nat
  | [] => 0
  | p :: ps => paraLen p + parasLen ps

/-- A raw body consisting of tables nested to the given depth. -/
def deepRawTable : Nat → RawBlock
  | 0 => .rawBreak
  | n + 1 => .rawTable [[[deepRawTable n]]]

/-- A concrete model: one paragraph "abc" with comment 7 anchored on the
character at offset 1 (the range `[1, 2)`). -/
def coverageModel : DocumentModel :=
  ⟨[Block.para ⟨[⟨['a', 'b', 'c'], []⟩], none, none, 0⟩], [], [],
   [(7, ⟨7, "alice", "2024-01-01", "note", none⟩)], [⟨7, 1, 2⟩]⟩

/-- A concrete model: one paragraph "abc" where comment 7 carries two
anchors, on the ranges `[0, 1)` and `[2, 3)`. -/
def overlapModel : DocumentModel :=
  ⟨[Block.para ⟨[⟨['a', 'b', 'c'], []⟩], none, none, 0⟩], [], [],
   [(7, ⟨7, "bob", "2024-01-02", "twice", none⟩)], [⟨7, 0, 1⟩, ⟨7, 2, 3⟩]⟩

/-- A concrete numbering definition: list 4 with two decimal levels. -/
def listDemoNums : List NumberingDefinition :=
  [⟨4, [⟨"decimal", 1, 0⟩, ⟨"decimal", 5, 1⟩]⟩]

/-- A concrete list-item paragraph of list 4, level 0. -/
def listPara1 : Paragraph := ⟨[⟨['h', 'i'], []⟩], none, some 4, 0⟩

/-- A second concrete list-item paragraph of list 4, level 0. -/
def listPara2 : Paragraph := ⟨[⟨['y', 'o'], []⟩], none, some 4, 0⟩

/-! ## Theorems -/

/-! ### Helper lemmas: style resolver -/

/-- The `basedOn` chain walk visits at most `fuel` definitions, whatever the
style table — in particular a cyclic table cannot make it longer. -/
theorem styleChain_length_le :
    ∀ (styles : List StyleDefinition) (fuel : Nat) (sid : String),
      (styleChain styles fuel sid).length ≤ fuel
  | styles, 0, sid => by simp [styleChain]
  | styles, fuel + 1, sid => by
    rw [styleChain]
    cases hf : styles.find? (fun d => d.id == sid) with
    | none => simp
    | some d =>
      simp only []
      cases hb : d.basedOn with
      | none => simp
      | some parentId =>
        simpa using Nat.succ_le_succ (styleChain_length_le styles fuel parentId)

/-! ### Helper lemmas: numbering resolver -/

/-- After a resolver call, the called level's counter holds the value just
returned. -/
theorem resolveNum_snd_self (defs : List NumberingDefinition) (s : NumState)
    (lid lvl : Nat) :
    (resolveNum defs s lid lvl).2 lid lvl = some (resolveNum defs s lid lvl).1 := by
  simp [resolveNum]

/-- A resolver call on another list, or on a strictly deeper level, leaves a
counter unchanged. -/
theorem resolveNum_preserves (defs : List NumberingDefinition) (s : NumState)
    (i l lid lvl : Nat) (h : i ≠ lid ∨ lvl < l) :
    (resolveNum defs s i l).2 lid lvl = s lid lvl := by
  simp only [resolveNum]
  split_ifs with h1 h2
  · rcases h with h | h <;> omega
  · rcases h with h | h <;> omega
  · rfl

/-- Running any sequence of calls on other lists or strictly deeper levels
leaves a counter unchanged. -/
theorem runNumCalls_preserves :
    ∀ (defs : List NumberingDefinition) (calls : List (Nat × Nat)) (s : NumState)
      (lid lvl : Nat), (∀ c ∈ calls, c.1 ≠ lid ∨ lvl < c.2) →
      runNumCalls defs s calls lid lvl = s lid lvl
  | _, [], _, _, _, _ => rfl
  | defs, c :: cs, s, lid, lvl, h => by
    rw [runNumCalls,
      runNumCalls_preserves defs cs _ lid lvl (fun d hd => h d (List.mem_cons_of_mem c hd))]
    exact resolveNum_preserves defs s c.1 c.2 lid lvl (h c (List.mem_cons_self c cs))

/-! ### Claim theorems: package interface -/

/-- C10: the parser package's public interface is exactly the three names
`parse_docx`, `to_tiptap` and `comments_to_dict`, re-exported unchanged
from the `docx_parser`, `tiptap_converter` and `comments_parser` submodules
respectively — there is no further (combined) export to call, so a caller
composes these functions. -/
theorem parser_public_interface :
    parserAll = ["parse_docx", "to_tiptap", "comments_to_dict"] ∧
    alistFind "parse_docx" parserReexports = some "docx_parser" ∧
    alistFind "to_tiptap" parserReexports = some "tiptap_converter" ∧
    alistFind "comments_to_dict" parserReexports = some "comments_parser" ∧
    (parserReexports.map Prod.fst).Perm parserAll := by
  exact ⟨rfl, rfl, rfl, rfl, by decide⟩

/-- C1, counterexample: the package's export surface has three entries, not
a single entry point, and the comment-mapping serializer
`comments_to_dict` is one of its own exports rather than an external
collaborator's. -/
theorem parser_single_entry_counterexample :
    parserAll.length = 3 ∧ parserAll.length ≠ 1 ∧ "comments_to_dict" ∈ parserAll := by
  decide

/-- C1, amended: instead of one combined entry point returning both
outputs, the parser package exposes exactly three entry points —
`parse_docx`, `to_tiptap` and `comments_to_dict` — which a caller composes
to obtain the projected tree and the comment mapping, and the serializer of
CommentRecord values into the plain mapping (`comments_to_dict`) belongs to
the package's own surface, re-exported from `comments_parser`. -/
theorem parser_entry_points_amended :
    parserAll = ["parse_docx", "to_tiptap", "comments_to_dict"] ∧
    parserAll.length = 3 ∧
    alistFind "comments_to_dict" parserReexports = some "comments_parser" :=
  ⟨rfl, rfl, rfl⟩

/-! ### Claim theorem: style resolution is capped -/

/-- C5: for every style table (cyclic `basedOn` chains included) and every
style id, the chain walk visits at most `styleCap = 64` definitions and
`resolveStyle` returns exactly the property mapping accumulated from that
capped chain — resolution is a total function: it never loops and never
raises. -/
theorem style_resolution_bounded :
    ∀ (styles : List StyleDefinition) (sid : String),
      (styleChain styles styleCap sid).length ≤ styleCap ∧
      resolveStyle styles sid = applyChain (styleChain styles styleCap sid) :=
  fun styles sid => ⟨styleChain_length_le styles styleCap sid, rfl⟩

/-! ### Claim theorem: numbering counters -/

/-- C6: after a resolver call on `(lid, lvl)` returns marker value `v`,
any further calls on other lists or on strictly deeper levels leave that
level's counter alone, so the next use of `(lid, lvl)` yields exactly
`v + 1` — marker values strictly increase within a list level across
consecutive uses — and the call resets every deeper sub-level of the same
list to its start value. -/
theorem numbering_monotone_and_reset :
    ∀ (defs : List NumberingDefinition) (s : NumState) (lid lvl v : Nat)
      (s' : NumState), resolveNum defs s lid lvl = (v, s') →
      ((∀ calls : List (Nat × Nat), (∀ c ∈ calls, c.1 ≠ lid ∨ lvl < c.2) →
        (resolveNum defs (runNumCalls defs s' calls) lid lvl).1 = v + 1 ∧
        v < (resolveNum defs (runNumCalls defs s' calls) lid lvl).1) ∧
      (∀ l', lvl < l' → (resolveNum defs s' lid l').1 = numStart defs lid l')) := by
  intro defs s lid lvl v s' h
  have hv : (resolveNum defs s lid lvl).1 = v := congrArg Prod.fst h
  have hsnd : (resolveNum defs s lid lvl).2 = s' := congrArg Prod.snd h
  have hs' : s' lid lvl = some v := by
    rw [← hsnd, resolveNum_snd_self, hv]
  constructor
  · intro calls hc
    have hrun : runNumCalls defs s' calls lid lvl = some v := by
      rw [runNumCalls_preserves defs calls s' lid lvl hc, hs']
    have : (resolveNum defs (runNumCalls defs s' calls) lid lvl).1 = v + 1 := by
      simp [resolveNum, hrun]
    exact ⟨this, by omega⟩
  · intro l' hl
    have hnone : s' lid l' = none := by
      rw [← hsnd]
      simp only [resolveNum]
      split_ifs with h1 h2
      · exact absurd h1.2 (by omega)
      · rfl
      · exact (h2 ⟨by trivial, hl⟩).elim
    simp [resolveNum, hnone]

/-- C6 witness: on a concrete definition (list 4: level 0 starts at 1,
level 1 starts at 5), a first use of level 0 then two uses of level 1
followed by another use of level 0 yields `value + 1 = 2` for level 0, and
immediately after the level-0 use, level 1 is back at its start value 5. -/
theorem numbering_monotone_and_reset_witness :
    (resolveNum listDemoNums
        (runNumCalls listDemoNums (resolveNum listDemoNums emptyNumState 4 0).2
          [(4, 1), (4, 1)]) 4 0).1 =
      (resolveNum listDemoNums emptyNumState 4 0).1 + 1 ∧
    (resolveNum listDemoNums (resolveNum listDemoNums emptyNumState 4 0).2 4 1).1 =
      numStart listDemoNums 4 1 ∧
    (resolveNum listDemoNums emptyNumState 4 0).1 = 1 ∧
    numStart listDemoNums 4 1 = 5 := by
  have h := numbering_monotone_and_reset listDemoNums emptyNumState 4 0
    (resolveNum listDemoNums emptyNumState 4 0).1
    (resolveNum listDemoNums emptyNumState 4 0).2 rfl
  exact ⟨(h.1 [(4, 1), (4, 1)] (by decide)).1, h.2 1 (by decide), by decide, by decide⟩

/-! ### Claim theorem: fail-closed on a bad container -/

/-- C4: whenever the byte buffer is not a valid container, or the decoded
container lacks the mandatory body part, the conversion fails with
`ArchiveError` and yields no partial output — the result is the bare error,
carrying neither a projected tree nor a comment mapping. -/
theorem bad_container_fails_closed :
    ∀ buf : List Nat,
      (decodeArchive buf = none ∨
        ∃ parts, decodeArchive buf = some parts ∧ findPart parts bodyPartName = none) →
      convert buf = Except.error ConvError.archiveError := by
  intro buf h
  rcases h with h | ⟨parts, h1, h2⟩
  · simp [convert, openDocx, h]
  · simp [convert, openDocx, h1, h2]

/-- C4 witness: the one-byte buffer `[5]` (a name length with no name
bytes) is not a valid container, and converting it yields exactly
`ArchiveError`. -/
theorem bad_container_fails_closed_witness :
    decodeArchive [5] = none ∧ convert [5] = Except.error ConvError.archiveError :=
  ⟨rfl, bad_container_fails_closed [5] (Or.inl rfl)⟩

/-! ### Helper lemmas: the builder and the nesting cap -/

mutual

/-- A raw block within the nesting budget builds successfully. -/
theorem buildBlock_ok : ∀ (d : Nat) (b : RawBlock), rawBlockDepth b ≤ d →
    ∃ x, buildBlock d b = Except.ok x
  | _, .rawPara p, _ => ⟨.para p, rfl⟩
  | _, .rawImage s, _ => ⟨.image s, rfl⟩
  | _, .rawBreak, _ => ⟨.pageBreak, rfl⟩
  | d, .rawTable rows, h => by
    cases d with
    | zero =>
      exfalso
      have hd : rawBlockDepth (RawBlock.rawTable rows) = 1 + rawRowsDepth rows := rfl
      omega
    | succ e =>
      obtain ⟨xs, hxs⟩ := buildRows_ok e rows (by
        have hd : rawBlockDepth (RawBlock.rawTable rows) = 1 + rawRowsDepth rows := rfl
        omega)
      exact ⟨Block.table xs, by simp [buildBlock, hxs]⟩

/-- Table rows within the nesting budget build successfully. -/
theorem buildRows_ok : ∀ (d : Nat) (rs : List (List (List RawBlock))),
    rawRowsDepth rs ≤ d → ∃ xs, buildRows d rs = Except.ok xs
  | _, [], _ => ⟨[], rfl⟩
  | d, r :: rs, h => by
    have hd : rawRowsDepth (r :: rs) = max (rawCellsDepth r) (rawRowsDepth rs) := rfl
    obtain ⟨h1, h2⟩ := Nat.max_le.mp (hd ▸ h)
    obtain ⟨c, hc⟩ := buildCells_ok d r h1
    obtain ⟨cs, hcs⟩ := buildRows_ok d rs h2
    exact ⟨c :: cs, by simp [buildRows, hc, hcs]⟩

/-- Cells within the nesting budget build successfully. -/
theorem buildCells_ok : ∀ (d : Nat) (cs : List (List RawBlock)),
    rawCellsDepth cs ≤ d → ∃ xs, buildCells d cs = Except.ok xs
  | _, [], _ => ⟨[], rfl⟩
  | d, c :: cs, h => by
    have hd : rawCellsDepth (c :: cs) = max (rawBlocksDepth c) (rawCellsDepth cs) := rfl
    obtain ⟨h1, h2⟩ := Nat.max_le.mp (hd ▸ h)
    obtain ⟨b, hb⟩ := buildBlocks_ok d c h1
    obtain ⟨bs, hbs⟩ := buildCells_ok d cs h2
    exact ⟨b :: bs, by simp [buildCells, hb, hbs]⟩

/-- A raw block sequence within the nesting budget builds successfully. -/
theorem buildBlocks_ok : ∀ (d : Nat) (bs : List RawBlock),
    rawBlocksDepth bs ≤ d → ∃ xs, buildBlocks d bs = Except.ok xs
  | _, [], _ => ⟨[], rfl⟩
  | d, b :: bs, h => by
    have hd : rawBlocksDepth (b :: bs) = max (rawBlockDepth b) (rawBlocksDepth bs) := rfl
    obtain ⟨h1, h2⟩ := Nat.max_le.mp (hd ▸ h)
    obtain ⟨x, hx⟩ := buildBlock_ok d b h1
    obtain ⟨xs, hxs⟩ := buildBlocks_ok d bs h2
    exact ⟨x :: xs, by simp [buildBlocks, hx, hxs]⟩

/-- A raw block exceeding the nesting budget fails with
`CorruptDocumentError`. -/
theorem buildBlock_err : ∀ (d : Nat) (b : RawBlock), d < rawBlockDepth b →
    buildBlock d b = Except.error ConvError.corruptDocument
  | _, .rawPara p, h => by
    exfalso; have hd : rawBlockDepth (RawBlock.rawPara p) = 0 := rfl; omega
  | _, .rawImage s, h => by
    exfalso; have hd : rawBlockDepth (RawBlock.rawImage s) = 0 := rfl; omega
  | _, .rawBreak, h => by
    exfalso; have hd : rawBlockDepth RawBlock.rawBreak = 0 := rfl; omega
  | d, .rawTable rows, h => by
    cases d with
    | zero => rfl
    | succ e =>
      have hd : rawBlockDepth (RawBlock.rawTable rows) = 1 + rawRowsDepth rows := rfl
      have he : e < rawRowsDepth rows := by omega
      simp [buildBlock, buildRows_err e rows he]

/-- Table rows exceeding the nesting budget fail with
`CorruptDocumentError`. -/
theorem buildRows_err : ∀ (d : Nat) (rs : List (List (List RawBlock))),
    d < rawRowsDepth rs → buildRows d rs = Except.error ConvError.corruptDocument
  | d, [], h => by
    exfalso
    have hd : rawRowsDepth ([] : List (List (List RawBlock))) = 0 := rfl
    omega
  | d, r :: rs, h => by
    have hd : rawRowsDepth (r :: rs) = max (rawCellsDepth r) (rawRowsDepth rs) := rfl
    by_cases h1 : d < rawCellsDepth r
    · simp [buildRows, buildCells_err d r h1]
    · have h2 : d < rawRowsDepth rs := by
        rcases lt_max_iff.mp (hd ▸ h) with hh | hh
        · exact absurd hh h1
        · exact hh
      obtain ⟨c, hc⟩ := buildCells_ok d r (by omega)
      simp [buildRows, hc, buildRows_err d rs h2]

/-- Cells exceeding the nesting budget fail with `CorruptDocumentError`. -/
theorem buildCells_err : ∀ (d : Nat) (cs : List (List RawBlock)),
    d < rawCellsDepth cs → buildCells d cs = Except.error ConvError.corruptDocument
  | d, [], h => by
    exfalso
    have hd : rawCellsDepth ([] : List (List RawBlock)) = 0 := rfl
    omega
  | d, c :: cs, h => by
    have hd : rawCellsDepth (c :: cs) = max (rawBlocksDepth c) (rawCellsDepth cs) := rfl
    by_cases h1 : d < rawBlocksDepth c
    · simp [buildCells, buildBlocks_err d c h1]
    · have h2 : d < rawCellsDepth cs := by
        rcases lt_max_iff.mp (hd ▸ h) with hh | hh
        · exact absurd hh h1
        · exact hh
      obtain ⟨b, hb⟩ := buildBlocks_ok d c (by omega)
      simp [buildCells, hb, buildCells_err d cs h2]

/-- A raw block sequence exceeding the nesting budget fails with
`CorruptDocumentError`. -/
theorem buildBlocks_err : ∀ (d : Nat) (bs : List RawBlock),
    d < rawBlocksDepth bs → buildBlocks d bs = Except.error ConvError.corruptDocument
  | d, [], h => by
    exfalso
    have hd : rawBlocksDepth ([] : List RawBlock) = 0 := rfl
    omega
  | d, b :: bs, h => by
    have hd : rawBlocksDepth (b :: bs) = max (rawBlockDepth b) (rawBlocksDepth bs) := rfl
    by_cases h1 : d < rawBlockDepth b
    · simp [buildBlocks, buildBlock_err d b h1]
    · have h2 : d < rawBlocksDepth bs := by
        rcases lt_max_iff.mp (hd ▸ h) with hh | hh
        · exact absurd hh h1
        · exact hh
      obtain ⟨x, hx⟩ := buildBlock_ok d b (by omega)
      simp [buildBlocks, hx, buildBlocks_err d bs h2]

end

/-! ### Claim theorem: the nesting cap is fatal, never silent -/

/-- C7: a body tree whose table nesting exceeds the cap of 64 makes the
Document Model Builder fail with `CorruptDocumentError`, and the whole
conversion from that body aborts with the same fatal error — the result
carries no output at all, so deep nesting is never silently truncated. -/
theorem nesting_cap_fatal :
    ∀ body : List RawBlock, 64 < rawBlocksDepth body →
      buildModel body = Except.error ConvError.corruptDocument ∧
      convertFromBody body = Except.error ConvError.corruptDocument := by
  intro body h
  have herr := buildBlocks_err 64 body h
  have hbm : buildModel body = Except.error ConvError.corruptDocument := by
    simp [buildModel, maxNestingDepth, herr]
  exact ⟨hbm, by simp [convertFromBody, hbm]⟩

set_option maxRecDepth 8000 in
/-- C7 witness: a concrete body holding tables nested 65 deep exceeds the
cap, and converting it yields exactly `CorruptDocumentError`. -/
theorem nesting_cap_fatal_witness :
    64 < rawBlocksDepth [deepRawTable 65] ∧
    convertFromBody [deepRawTable 65] = Except.error ConvError.corruptDocument :=
  ⟨by decide, (nesting_cap_fatal [deepRawTable 65] (by decide)).2⟩

/-! ### Helper lemmas: flattening the projected tree -/

/-- Flattening distributes over node-list concatenation. -/
theorem flatNodes_append : ∀ xs ys : List TargetNode,
    flatNodes (xs ++ ys) = flatNodes xs ++ flatNodes ys
  | [], ys => by simp [flatNodes]
  | x :: xs, ys => by simp [flatNodes, flatNodes_append xs ys, List.append_assoc]

/-- Prepending one annotated character to a chunked node list prepends it
to the flattening. -/
theorem flatNodes_chunkStep (p : Char × List Mark) (acc : List TargetNode) :
    flatNodes (chunkStep p acc) = p :: flatNodes acc := by
  obtain ⟨c, ms⟩ := p
  cases acc with
  | nil => simp [chunkStep, flatNodes, flatNode]
  | cons hd tl =>
    cases hd with
    | text cs ms2 =>
      by_cases h : ms = ms2
      · subst h; simp [chunkStep, flatNodes, flatNode]
      · simp [chunkStep, h, flatNodes, flatNode]
    | node t a cs => simp [chunkStep, flatNodes, flatNode]

/-- Splitting an annotated character sequence into homogeneous text nodes
loses and duplicates nothing: flattening the chunks recovers the
sequence. -/
theorem flatNodes_chunk : ∀ l : List (Char × List Mark), flatNodes (chunk l) = l
  | [] => rfl
  | p :: l => by
    have h : chunk (p :: l) = chunkStep p (chunk l) := rfl
    rw [h, flatNodes_chunkStep, flatNodes_chunk l]

/-- Flattening the text nodes of a run sequence yields its annotated
characters. -/
theorem flatNodes_projectRuns (anchors : List CommentAnchor) :
    ∀ (off : Nat) (rs : List Run),
      flatNodes (projectRuns anchors off rs) = annotateRuns anchors off rs
  | _, [] => rfl
  | off, r :: rs => by
    rw [projectRuns, annotateRuns, flatNodes_append,
      flatNodes_projectRuns anchors (off + r.text.length) rs, projectRun, flatNodes_chunk]

/-- Flattening a paragraph or heading node yields the paragraph's annotated
characters. -/
theorem flatNode_paraNode (anchors : List CommentAnchor) (off : Nat) (p : Paragraph) :
    flatNode (paraNode anchors off p) = annotateRuns anchors off p.runs := by
  cases hh : p.headingLevel <;>
    simp [paraNode, hh, flatNode, flatNodes_projectRuns]

/-- Merging a projected node into already-projected siblings preserves the
flattened characters. -/
theorem flatNodes_consMerge : ∀ (n : TargetNode) (acc : List TargetNode),
    flatNodes (consMerge n acc) = flatNode n ++ flatNodes acc := by
  intro n acc
  cases n with
  | text cs ms =>
    cases acc with
    | nil => rfl
    | cons hd tl => cases hd <;> rfl
  | node t a cs =>
    cases acc with
    | nil => simp [consMerge, flatNodes]
    | cons hd tl =>
      cases hd with
      | text cs2 ms2 => simp [consMerge, flatNodes, flatNode]
      | node t2 a2 cs2 =>
        by_cases h : isListNodeType t ∧ t = t2 ∧ a = a2
        · obtain ⟨h1, rfl, rfl⟩ := h
          simp [consMerge, h1, flatNodes, flatNode, flatNodes_append, List.append_assoc]
        · simp [consMerge, h, flatNodes, flatNode]

mutual

/-- Flattening a projected block yields its annotated characters. -/
theorem flat_projectBlock : ∀ (nums : List NumberingDefinition)
    (anchors : List CommentAnchor) (off : Nat) (b : Block),
    flatNode (projectBlock nums anchors off b) = annotateBlock anchors off b
  | nums, anchors, off, .para p => by
    cases hl : p.listId with
    | none => simp [projectBlock, hl, annotateBlock, flatNode_paraNode]
    | some lid =>
      simp [projectBlock, hl, annotateBlock, flatNode, flatNodes, listItemNode,
        flatNode_paraNode]
  | nums, anchors, off, .table rows => by
    simp [projectBlock, annotateBlock, flatNode, flat_projectRows nums anchors off rows]
  | nums, anchors, off, .image s => by
    simp [projectBlock, annotateBlock, flatNode, flatNodes]
  | nums, anchors, off, .pageBreak => by
    simp [projectBlock, annotateBlock, flatNode, flatNodes]

/-- Flattening projected table rows yields their annotated characters. -/
theorem flat_projectRows : ∀ (nums : List NumberingDefinition)
    (anchors : List CommentAnchor) (off : Nat) (rs : List (List (List Block))),
    flatNodes (projectRows nums anchors off rs) = annotateRows anchors off rs
  | _, _, _, [] => rfl
  | nums, anchors, off, r :: rs => by
    simp [projectRows, annotateRows, flatNodes, flatNode,
      flat_projectRows nums anchors (off + cellsLen r) rs,
      flat_projectCells nums anchors off r]

/-- Flattening projected cells yields their annotated characters. -/
theorem flat_projectCells : ∀ (nums : List NumberingDefinition)
    (anchors : List CommentAnchor) (off : Nat) (cs : List (List Block)),
    flatNodes (projectCells nums anchors off cs) = annotateCells anchors off cs
  | _, _, _, [] => rfl
  | nums, anchors, off, c :: cs => by
    simp [projectCells, annotateCells, flatNodes, flatNode,
      flat_projectCells nums anchors (off + blocksLen c) cs,
      flat_projectBlocks nums anchors off c]

/-- Flattening a projected block sequence yields its annotated
characters. -/
theorem flat_projectBlocks : ∀ (nums : List NumberingDefinition)
    (anchors : List CommentAnchor) (off : Nat) (bs : List Block),
    flatNodes (projectBlocks nums anchors off bs) = annotateBlocks anchors off bs
  | _, _, _, [] => rfl
  | nums, anchors, off, b :: bs => by
    rw [projectBlocks, annotateBlocks, flatNodes_consMerge,
      flat_projectBlock nums anchors off b,
      flat_projectBlocks nums anchors (off + blockLen b) bs]

end

mutual

/-- The text of a target tree is the first components of its flattening. -/
theorem docText_flat : ∀ n : TargetNode, docText n = (flatNode n).map Prod.fst
  | .text cs ms => by
    simp only [docText, flatNode, List.map_map]
    rw [show (Prod.fst ∘ fun c => (c, ms)) = id from rfl, List.map_id]
  | .node t a children => by simp [docText, flatNode, docTexts_flat children]

/-- The text of a node sequence is the first components of its
flattening. -/
theorem docTexts_flat : ∀ ns : List TargetNode, docTexts ns = (flatNodes ns).map Prod.fst
  | [] => rfl
  | n :: ns => by simp [docTexts, flatNodes, docText_flat n, docTexts_flat ns]

end

/-- The characters of annotated text are the text itself. -/
theorem annotateChars_map_fst (anchors : List CommentAnchor) (base : List Mark) :
    ∀ (off : Nat) (cs : List Char),
      (annotateChars anchors base off cs).map Prod.fst = cs
  | _, [] => rfl
  | off, c :: cs => by
    simp [annotateChars, annotateChars_map_fst anchors base (off + 1) cs]

/-- The characters of an annotated run sequence are the runs' concatenated
text. -/
theorem annotateRuns_map_fst (anchors : List CommentAnchor) :
    ∀ (off : Nat) (rs : List Run),
      (annotateRuns anchors off rs).map Prod.fst = runsText rs
  | _, [] => rfl
  | off, r :: rs => by
    simp [annotateRuns, runsText, annotateRun, annotateChars_map_fst,
      annotateRuns_map_fst anchors (off + r.text.length) rs]

mutual

/-- The characters of an annotated block are its Run text. -/
theorem annotateBlock_map_fst : ∀ (anchors : List CommentAnchor) (off : Nat) (b : Block),
    (annotateBlock anchors off b).map Prod.fst = blockText b
  | anchors, off, .para p => by simp [annotateBlock, blockText, annotateRuns_map_fst]
  | anchors, off, .table rows => by
    simp [annotateBlock, blockText, annotateRows_map_fst anchors off rows]
  | _, _, .image s => rfl
  | _, _, .pageBreak => rfl

/-- The characters of annotated table rows are their Run text. -/
theorem annotateRows_map_fst : ∀ (anchors : List CommentAnchor) (off : Nat)
    (rs : List (List (List Block))),
    (annotateRows anchors off rs).map Prod.fst = rowsText rs
  | _, _, [] => rfl
  | anchors, off, r :: rs => by
    simp [annotateRows, rowsText, annotateCells_map_fst anchors off r,
      annotateRows_map_fst anchors (off + cellsLen r) rs]

/-- The characters of annotated cells are their Run text. -/
theorem annotateCells_map_fst : ∀ (anchors : List CommentAnchor) (off : Nat)
    (cs : List (List Block)),
    (annotateCells anchors off cs).map Prod.fst = cellsText cs
  | _, _, [] => rfl
  | anchors, off, c :: cs => by
    simp [annotateCells, cellsText, annotateBlocks_map_fst anchors off c,
      annotateCells_map_fst anchors (off + blocksLen c) cs]

/-- The characters of an annotated block sequence are its Run text. -/
theorem annotateBlocks_map_fst : ∀ (anchors : List CommentAnchor) (off : Nat)
    (bs : List Block),
    (annotateBlocks anchors off bs).map Prod.fst = blocksText bs
  | _, _, [] => rfl
  | anchors, off, b :: bs => by
    simp [annotateBlocks, blocksText, annotateBlock_map_fst anchors off b,
      annotateBlocks_map_fst anchors (off + blockLen b) bs]

end

/-! ### Claim theorem: text preservation -/

/-- C2: for every DocumentModel, concatenating the contents of all text
nodes of the projected tree in document order equals concatenating all Run
texts of the model in document order — the projector's run splitting and
span merging neither lose nor duplicate any text. -/
theorem projection_preserves_text :
    ∀ m : DocumentModel, docText (projectDoc m) = blocksText m.blocks := by
  intro m
  have h1 : docText (projectDoc m) =
      docTexts (projectBlocks m.numbering m.anchors 0 m.blocks) := rfl
  rw [h1, docTexts_flat, flat_projectBlocks, annotateBlocks_map_fst]

/-! ### Helper lemmas: annotated lengths -/

/-- Annotation preserves the number of characters of a text. -/
theorem annotateChars_length (anchors : List CommentAnchor) (base : List Mark) :
    ∀ (off : Nat) (cs : List Char),
      (annotateChars anchors base off cs).length = cs.length
  | _, [] => rfl
  | off, c :: cs => by
    simp [annotateChars, annotateChars_length anchors base (off + 1) cs]

/-- An annotated run has one entry per character. -/
theorem annotateRun_length (anchors : List CommentAnchor) (off : Nat) (r : Run) :
    (annotateRun anchors off r).length = r.text.length :=
  annotateChars_length anchors (r.marks.map Mark.fmt) off r.text

/-- An annotated run sequence has one entry per character. -/
theorem annotateRuns_length (anchors : List CommentAnchor) :
    ∀ (off : Nat) (rs : List Run), (annotateRuns anchors off rs).length = runsLen rs
  | _, [] => rfl
  | off, r :: rs => by
    simp [annotateRuns, runsLen, annotateRun_length,
      annotateRuns_length anchors (off + r.text.length) rs]

mutual

/-- An annotated block has one entry per character. -/
theorem annotateBlock_length : ∀ (anchors : List CommentAnchor) (off : Nat) (b : Block),
    (annotateBlock anchors off b).length = blockLen b
  | anchors, off, .para p => by
    simp [annotateBlock, blockLen, paraLen, annotateRuns_length]
  | anchors, off, .table rows => by
    simp [annotateBlock, blockLen, annotateRows_length anchors off rows]
  | _, _, .image s => rfl
  | _, _, .pageBreak => rfl

/-- Annotated table rows have one entry per character. -/
theorem annotateRows_length : ∀ (anchors : List CommentAnchor) (off : Nat)
    (rs : List (List (List Block))),
    (annotateRows anchors off rs).length = rowsLen rs
  | _, _, [] => rfl
  | anchors, off, r :: rs => by
    simp [annotateRows, rowsLen, annotateCells_length anchors off r,
      annotateRows_length anchors (off + cellsLen r) rs]

/-- Annotated cells have one entry per character. -/
theorem annotateCells_length : ∀ (anchors : List CommentAnchor) (off : Nat)
    (cs : List (List Block)),
    (annotateCells anchors off cs).length = cellsLen cs
  | _, _, [] => rfl
  | anchors, off, c :: cs => by
    simp [annotateCells, cellsLen, annotateBlocks_length anchors off c,
      annotateCells_length anchors (off + blocksLen c) cs]

/-- An annotated block sequence has one entry per character. -/
theorem annotateBlocks_length : ∀ (anchors : List CommentAnchor) (off : Nat)
    (bs : List Block),
    (annotateBlocks anchors off bs).length = blocksLen bs
  | _, _, [] => rfl
  | anchors, off, b :: bs => by
    simp [annotateBlocks, blocksLen, annotateBlock_length anchors off b,
      annotateBlocks_length anchors (off + blockLen b) bs]

end

/-! ### Helper lemmas: every annotated character carries exactly the
comment marks of its offset -/

/-- The empty list is trivially annotated. -/
theorem annotatedAt_nil (anchors : List CommentAnchor) (off : Nat) :
    AnnotatedAt anchors off [] := by
  intro i p hp
  simp at hp

/-- Annotatedness is preserved by concatenation at consecutive offsets. -/
theorem annotatedAt_append (anchors : List CommentAnchor)
    (l1 l2 : List (Char × List Mark)) (off : Nat)
    (h1 : AnnotatedAt anchors off l1)
    (h2 : AnnotatedAt anchors (off + l1.length) l2) :
    AnnotatedAt anchors off (l1 ++ l2) := by
  intro i p hp
  by_cases hi : i < l1.length
  · exact h1 i p (by rwa [List.getElem?_append_left hi] at hp)
  · push_neg at hi
    rw [List.getElem?_append_right hi] at hp
    obtain ⟨base, hcf, hm⟩ := h2 (i - l1.length) p hp
    have harith : off + l1.length + (i - l1.length) = off + i := by omega
    exact ⟨base, hcf, by rw [hm, harith]⟩

/-- Character-level annotation satisfies the annotatedness invariant for
any comment-free base marks. -/
theorem annotatedAt_annotateChars (anchors : List CommentAnchor) (base : List Mark)
    (hcf : CommentFree base) :
    ∀ (off : Nat) (cs : List Char),
      AnnotatedAt anchors off (annotateChars anchors base off cs)
  | off, [] => annotatedAt_nil anchors off
  | off, c :: cs => by
    intro i p hp
    rw [annotateChars] at hp
    cases i with
    | zero =>
      simp only [List.getElem?_cons_zero, Option.some_inj] at hp
      refine ⟨base, hcf, ?_⟩
      rw [← hp]
      simp
    | succ j =>
      simp only [List.getElem?_cons_succ] at hp
      obtain ⟨b2, hc2, hm2⟩ :=
        annotatedAt_annotateChars anchors base hcf (off + 1) cs j p hp
      have harith : off + 1 + j = off + (j + 1) := by omega
      exact ⟨b2, hc2, by rw [hm2, harith]⟩

/-- A Run's resolved formatting marks contain no comment mark. -/
theorem commentFree_fmt (rms : List RunMark) : CommentFree (rms.map Mark.fmt) := by
  intro cid hmem
  obtain ⟨rm, _, he⟩ := List.mem_map.mp hmem
  exact Mark.noConfusion he

/-- An annotated run satisfies the annotatedness invariant. -/
theorem annotatedAt_annotateRun (anchors : List CommentAnchor) (off : Nat) (r : Run) :
    AnnotatedAt anchors off (annotateRun anchors off r) :=
  annotatedAt_annotateChars anchors (r.marks.map Mark.fmt) (commentFree_fmt r.marks)
    off r.text

/-- An annotated run sequence satisfies the annotatedness invariant. -/
theorem annotatedAt_annotateRuns (anchors : List CommentAnchor) :
    ∀ (off : Nat) (rs : List Run),
      AnnotatedAt anchors off (annotateRuns anchors off rs)
  | off, [] => annotatedAt_nil anchors off
  | off, r :: rs => by
    rw [annotateRuns]
    apply annotatedAt_append
    · exact annotatedAt_annotateRun anchors off r
    · rw [annotateRun_length]
      exact annotatedAt_annotateRuns anchors (off + r.text.length) rs

mutual

/-- An annotated block satisfies the annotatedness invariant. -/
theorem annotatedAt_annotateBlock : ∀ (anchors : List CommentAnchor) (off : Nat)
    (b : Block), AnnotatedAt anchors off (annotateBlock anchors off b)
  | anchors, off, .para p => annotatedAt_annotateRuns anchors off p.runs
  | anchors, off, .table rows => annotatedAt_annotateRows anchors off rows
  | anchors, off, .image _ => annotatedAt_nil anchors off
  | anchors, off, .pageBreak => annotatedAt_nil anchors off

/-- Annotated table rows satisfy the annotatedness invariant. -/
theorem annotatedAt_annotateRows : ∀ (anchors : List CommentAnchor) (off : Nat)
    (rs : List (List (List Block))),
    AnnotatedAt anchors off (annotateRows anchors off rs)
  | anchors, off, [] => annotatedAt_nil anchors off
  | anchors, off, r :: rs => by
    rw [annotateRows]
    apply annotatedAt_append
    · exact annotatedAt_annotateCells anchors off r
    · rw [annotateCells_length]
      exact annotatedAt_annotateRows anchors (off + cellsLen r) rs

/-- Annotated cells satisfy the annotatedness invariant. -/
theorem annotatedAt_annotateCells : ∀ (anchors : List CommentAnchor) (off : Nat)
    (cs : List (List Block)),
    AnnotatedAt anchors off (annotateCells anchors off cs)
  | anchors, off, [] => annotatedAt_nil anchors off
  | anchors, off, c :: cs => by
    rw [annotateCells]
    apply annotatedAt_append
    · exact annotatedAt_annotateBlocks anchors off c
    · rw [annotateBlocks_length]
      exact annotatedAt_annotateCells anchors (off + blocksLen c) cs

/-- An annotated block sequence satisfies the annotatedness invariant. -/
theorem annotatedAt_annotateBlocks : ∀ (anchors : List CommentAnchor) (off : Nat)
    (bs : List Block),
    AnnotatedAt anchors off (annotateBlocks anchors off bs)
  | anchors, off, [] => annotatedAt_nil anchors off
  | anchors, off, b :: bs => by
    rw [annotateBlocks]
    apply annotatedAt_append
    · exact annotatedAt_annotateBlock anchors off b
    · rw [annotateBlock_length]
      exact annotatedAt_annotateBlocks anchors (off + blockLen b) bs

end

/-- Membership of a comment mark in the marks applying at an offset. -/
theorem mem_commentMarksAt (anchors : List CommentAnchor) (pos cid : Nat) :
    Mark.comment cid ∈ commentMarksAt anchors pos ↔
      ∃ a ∈ anchors, a.commentId = cid ∧ a.start ≤ pos ∧ pos < a.stop := by
  simp only [commentMarksAt, List.mem_filterMap]
  constructor
  · rintro ⟨a, ha, hif⟩
    by_cases hc : a.start ≤ pos ∧ pos < a.stop
    · rw [if_pos hc] at hif
      have : a.commentId = cid := by
        injection hif with h
        injection h
      exact ⟨a, ha, this, hc.1, hc.2⟩
    · rw [if_neg hc] at hif
      exact absurd hif (by simp)
  · rintro ⟨a, ha, hcid, h1, h2⟩
    exact ⟨a, ha, by rw [if_pos ⟨h1, h2⟩, hcid]⟩

/-! ### Claim theorem: comment marks cover exactly the anchored range -/

/-- C3, counterexample: coverage of exactly one anchor's range fails as
soon as two anchors carry the same comment id — spec §3 gives a
CommentRecord a whole set of anchors, and §6 emits a list of ranges per
comment.  In `overlapModel`, comment 7 is anchored on `[0, 1)` and on
`[2, 3)`; the anchor `⟨7, 0, 1⟩` satisfies start ≤ end, yet the output
character at offset 2 — outside that anchor's range — carries the comment-7
mark. -/
theorem comment_mark_coverage_counterexample :
    (⟨7, 0, 1⟩ : CommentAnchor) ∈ overlapModel.anchors ∧
    (⟨7, 0, 1⟩ : CommentAnchor).start ≤ (⟨7, 0, 1⟩ : CommentAnchor).stop ∧
    (flatNode (projectDoc overlapModel))[2]? = some ('c', [Mark.comment 7]) ∧
    Mark.comment 7 ∈ [Mark.comment 7] ∧
    ¬((⟨7, 0, 1⟩ : CommentAnchor).start ≤ 2 ∧
        2 < (⟨7, 0, 1⟩ : CommentAnchor).stop) := by
  refine ⟨by decide, by decide, rfl, by decide, by decide⟩

/-- C3, amended: for every CommentAnchor of the model whose start does not
exceed its end, and whose comment id is carried by no other anchor of the
model, the comment marks emitted by the projector cover exactly the
anchored character range: a character of the flattened output carries the
anchor's comment mark if and only if its flat offset lies in
`[start, stop)`.  (When several anchors share one comment id, the mark
covers the union of their ranges instead.) -/
theorem comment_mark_coverage :
    ∀ (m : DocumentModel) (a : CommentAnchor), a ∈ m.anchors → a.start ≤ a.stop →
      (∀ a' ∈ m.anchors, a'.commentId = a.commentId → a' = a) →
      ∀ (i : Nat) (c : Char) (ms : List Mark),
        (flatNode (projectDoc m))[i]? = some (c, ms) →
        (Mark.comment a.commentId ∈ ms ↔ (a.start ≤ i ∧ i < a.stop)) := by
  intro m a ha _hse huniq i c ms hget
  have hfl : flatNode (projectDoc m) = annotateBlocks m.anchors 0 m.blocks := by
    have h0 : flatNode (projectDoc m) =
        flatNodes (projectBlocks m.numbering m.anchors 0 m.blocks) := rfl
    rw [h0, flat_projectBlocks]
  rw [hfl] at hget
  obtain ⟨base, hcf, hms⟩ :=
    annotatedAt_annotateBlocks m.anchors 0 m.blocks i (c, ms) hget
  simp only at hms
  constructor
  · intro hmem
    rw [hms] at hmem
    rcases List.mem_append.mp hmem with h | h
    · exact absurd h (hcf a.commentId)
    · obtain ⟨a', ha', hcid, h1, h2⟩ :=
        (mem_commentMarksAt m.anchors (0 + i) a.commentId).mp h
      cases huniq a' ha' hcid
      exact ⟨by omega, by omega⟩
  · rintro ⟨h1, h2⟩
    rw [hms]
    apply List.mem_append_right
    exact (mem_commentMarksAt m.anchors (0 + i) a.commentId).mpr
      ⟨a, ha, rfl, by omega, by omega⟩

/-- C3 witness: in the concrete model with text "abc" and comment 7
anchored on `[1, 2)`, the output character at offset 1 carries the comment
mark and the character at offset 0 does not. -/
theorem comment_mark_coverage_witness :
    (flatNode (projectDoc coverageModel))[1]? = some ('b', [Mark.comment 7]) ∧
    Mark.comment 7 ∈ [Mark.comment 7] ∧
    (flatNode (projectDoc coverageModel))[0]? = some ('a', []) ∧
    Mark.comment 7 ∉ ([] : List Mark) := by
  have h1 := comment_mark_coverage coverageModel ⟨7, 1, 2⟩ (by decide) (by decide)
    (by decide) 1 'b' [Mark.comment 7] rfl
  have h0 := comment_mark_coverage coverageModel ⟨7, 1, 2⟩ (by decide) (by decide)
    (by decide) 0 'a' [] rfl
  refine ⟨rfl, ?_, rfl, ?_⟩
  · exact h1.mpr (by decide)
  · exact fun hm => absurd (h0.mp hm) (by decide)

/-! ### Helper lemmas: list-node merging -/

/-- A list node's type tag is one of the two list container types, so it is
recognized as a list node. -/
theorem isListNodeType_listTypeOf (nums : List NumberingDefinition) (lid lvl : Nat) :
    isListNodeType (listTypeOf nums lid lvl) = true := by
  unfold listTypeOf
  by_cases h : levelFormat nums lid lvl = "bullet"
  · rw [if_pos h]; decide
  · rw [if_neg h]; decide

/-- A list node's type tag differs from any non-list type tag. -/
theorem listTypeOf_ne (nums : List NumberingDefinition) (lid lvl : Nat) (t : String)
    (h1 : t ≠ "bulletList") (h2 : t ≠ "orderedList") :
    listTypeOf nums lid lvl ≠ t := by
  unfold listTypeOf
  by_cases h : levelFormat nums lid lvl = "bullet"
  · rw [if_pos h]; exact fun he => h1 he.symm
  · rw [if_neg h]; exact fun he => h2 he.symm

/-- List-node attributes determine the list id and level. -/
theorem listAttrs_inj {l1 v1 l2 v2 : Nat} (h : listAttrs l1 v1 = listAttrs l2 v2) :
    l1 = l2 ∧ v1 = v2 := by
  simp only [listAttrs, List.cons.injEq, Prod.mk.injEq] at h
  exact ⟨h.1.2, h.2.1.2⟩

/-- Merging a container node into siblings keeps its type and attributes at
the head. -/
theorem consMerge_node_shape (t : String) (a : List (String × Nat))
    (cs l : List TargetNode) :
    ∃ cs2 rest, consMerge (TargetNode.node t a cs) l =
      TargetNode.node t a cs2 :: rest := by
  cases l with
  | nil => exact ⟨cs, [], rfl⟩
  | cons hd tl =>
    cases hd with
    | text cs2 ms2 => exact ⟨cs, TargetNode.text cs2 ms2 :: tl, rfl⟩
    | node t2 a2 cs2 =>
      by_cases h : isListNodeType t ∧ t = t2 ∧ a = a2
      · obtain ⟨h1, rfl, rfl⟩ := h
        exact ⟨cs ++ cs2, tl, by simp [consMerge, h1]⟩
      · exact ⟨cs, TargetNode.node t2 a2 cs2 :: tl, by simp [consMerge, h]⟩

/-- Projecting a nonempty block sequence whose first block does not carry
the given list key yields a head node that a list node with that key cannot
merge with. -/
theorem projectBlocks_head_no_key (nums : List NumberingDefinition)
    (anchors : List CommentAnchor) (off2 : Nat) (b : Block) (r : List Block)
    (lid lvl : Nat) (hkb : blockListKey b ≠ some (lid, lvl)) :
    ∃ t2 a2 cs2 rest2,
      projectBlocks nums anchors off2 (b :: r) = TargetNode.node t2 a2 cs2 :: rest2 ∧
      ¬(isListNodeType (listTypeOf nums lid lvl) ∧ listTypeOf nums lid lvl = t2 ∧
          listAttrs lid lvl = a2) := by
  rw [projectBlocks]
  cases b with
  | para p =>
    cases hl : p.listId with
    | none =>
      cases hh : p.headingLevel with
      | none =>
        obtain ⟨cs2, rest2, heq⟩ := consMerge_node_shape "paragraph" []
          (projectRuns anchors off2 p.runs)
          (projectBlocks nums anchors (off2 + blockLen (Block.para p)) r)
        refine ⟨"paragraph", [], cs2, rest2, ?_, ?_⟩
        · rw [show projectBlock nums anchors off2 (Block.para p) =
            TargetNode.node "paragraph" [] (projectRuns anchors off2 p.runs) by
              simp [projectBlock, hl, paraNode, hh]]
          exact heq
        · rintro ⟨_, hT, _⟩
          exact listTypeOf_ne nums lid lvl "paragraph" (by decide) (by decide) hT
      | some n =>
        obtain ⟨cs2, rest2, heq⟩ := consMerge_node_shape "heading" [("level", n)]
          (projectRuns anchors off2 p.runs)
          (projectBlocks nums anchors (off2 + blockLen (Block.para p)) r)
        refine ⟨"heading", [("level", n)], cs2, rest2, ?_, ?_⟩
        · rw [show projectBlock nums anchors off2 (Block.para p) =
            TargetNode.node "heading" [("level", n)] (projectRuns anchors off2 p.runs) by
              simp [projectBlock, hl, paraNode, hh]]
          exact heq
        · rintro ⟨_, hT, _⟩
          exact listTypeOf_ne nums lid lvl "heading" (by decide) (by decide) hT
    | some lid2 =>
      obtain ⟨cs2, rest2, heq⟩ := consMerge_node_shape
        (listTypeOf nums lid2 p.listLevel) (listAttrs lid2 p.listLevel)
        [listItemNode anchors off2 p]
        (projectBlocks nums anchors (off2 + blockLen (Block.para p)) r)
      refine ⟨listTypeOf nums lid2 p.listLevel, listAttrs lid2 p.listLevel, cs2, rest2,
        ?_, ?_⟩
      · rw [show projectBlock nums anchors off2 (Block.para p) =
          TargetNode.node (listTypeOf nums lid2 p.listLevel) (listAttrs lid2 p.listLevel)
            [listItemNode anchors off2 p] by simp [projectBlock, hl]]
        exact heq
      · rintro ⟨_, _, hA⟩
        obtain ⟨he1, he2⟩ := listAttrs_inj hA
        apply hkb
        simp [blockListKey, hl, ← he1, ← he2]
  | table rows =>
    obtain ⟨cs2, rest2, heq⟩ := consMerge_node_shape "table" []
      (projectRows nums anchors off2 rows)
      (projectBlocks nums anchors (off2 + blockLen (Block.table rows)) r)
    refine ⟨"table", [], cs2, rest2, ?_, ?_⟩
    · rw [show projectBlock nums anchors off2 (Block.table rows) =
        TargetNode.node "table" [] (projectRows nums anchors off2 rows) from rfl]
      exact heq
    · rintro ⟨_, hT, _⟩
      exact listTypeOf_ne nums lid lvl "table" (by decide) (by decide) hT
  | image s =>
    obtain ⟨cs2, rest2, heq⟩ := consMerge_node_shape "image" [] []
      (projectBlocks nums anchors (off2 + blockLen (Block.image s)) r)
    refine ⟨"image", [], cs2, rest2, ?_, ?_⟩
    · rw [show projectBlock nums anchors off2 (Block.image s) =
        TargetNode.node "image" [] [] from rfl]
      exact heq
    · rintro ⟨_, hT, _⟩
      exact listTypeOf_ne nums lid lvl "image" (by decide) (by decide) hT
  | pageBreak =>
    obtain ⟨cs2, rest2, heq⟩ := consMerge_node_shape "hardBreak" [] []
      (projectBlocks nums anchors (off2 + blockLen Block.pageBreak) r)
    refine ⟨"hardBreak", [], cs2, rest2, ?_, ?_⟩
    · rw [show projectBlock nums anchors off2 Block.pageBreak =
        TargetNode.node "hardBreak" [] [] from rfl]
      exact heq
    · rintro ⟨_, hT, _⟩
      exact listTypeOf_ne nums lid lvl "hardBreak" (by decide) (by decide) hT

/-- A list node does not merge into the projection of a block sequence that
does not open with a paragraph of the same list key. -/
theorem consMerge_listNode_projectBlocks (nums : List NumberingDefinition)
    (anchors : List CommentAnchor) (lid lvl : Nat) (cs : List TargetNode)
    (off2 : Nat) (rest : List Block)
    (hk : ∀ b, rest.head? = some b → blockListKey b ≠ some (lid, lvl)) :
    consMerge (TargetNode.node (listTypeOf nums lid lvl) (listAttrs lid lvl) cs)
        (projectBlocks nums anchors off2 rest) =
      TargetNode.node (listTypeOf nums lid lvl) (listAttrs lid lvl) cs ::
        projectBlocks nums anchors off2 rest := by
  cases rest with
  | nil => rfl
  | cons b r =>
    obtain ⟨t2, a2, cs2, rest2, heq, hne⟩ :=
      projectBlocks_head_no_key nums anchors off2 b r lid lvl (hk b rfl)
    rw [heq]
    simp only [consMerge]
    rw [if_neg hne]

/-! ### Claim theorem: consecutive list paragraphs form one list node -/

/-- C8: a maximal run of consecutive sibling paragraphs sharing one list id
and level (nonempty, and followed by no block of the same key) projects to
exactly one list node — ordered or unordered per the numbering definition's
marker format — containing one listItem child per paragraph, followed by
the projection of the remaining siblings; in particular two consecutive
list paragraphs at the same id and level yield one list node with two
listItem children, never two adjacent sibling list nodes. -/
theorem list_grouping_single_node :
    ∀ (nums : List NumberingDefinition) (anchors : List CommentAnchor)
      (lid lvl : Nat) (ps : List Paragraph) (rest : List Block) (off : Nat),
      ps ≠ [] →
      (∀ p ∈ ps, p.listId = some lid ∧ p.listLevel = lvl) →
      (∀ b, rest.head? = some b → blockListKey b ≠ some (lid, lvl)) →
      projectBlocks nums anchors off (ps.map Block.para ++ rest) =
        TargetNode.node (listTypeOf nums lid lvl) (listAttrs lid lvl)
          (listItems anchors off ps) ::
          projectBlocks nums anchors (off + parasLen ps) rest ∧
      (listItems anchors off ps).length = ps.length
  | nums, anchors, lid, lvl, [], rest, off, hne, _, _ => absurd rfl hne
  | nums, anchors, lid, lvl, [p], rest, off, _, hall, hk => by
    obtain ⟨hpl, hpv⟩ := hall p (by simp)
    have hpb : projectBlock nums anchors off (Block.para p) =
        TargetNode.node (listTypeOf nums lid lvl) (listAttrs lid lvl)
          [listItemNode anchors off p] := by
      simp [projectBlock, hpl, hpv]
    constructor
    · rw [List.map_cons, List.map_nil, List.cons_append, List.nil_append,
        projectBlocks, hpb,
        show off + blockLen (Block.para p) = off + parasLen [p] by
          simp [blockLen, parasLen],
        consMerge_listNode_projectBlocks nums anchors lid lvl _ _ rest hk]
      rfl
    · rfl
  | nums, anchors, lid, lvl, p :: q :: ps, rest, off, _, hall, hk => by
    obtain ⟨hpl, hpv⟩ := hall p (by simp)
    have hall' : ∀ x ∈ q :: ps, x.listId = some lid ∧ x.listLevel = lvl :=
      fun x hx => hall x (List.mem_cons_of_mem p hx)
    obtain ⟨ih1, ih2⟩ := list_grouping_single_node nums anchors lid lvl (q :: ps)
      rest (off + paraLen p) (by simp) hall' hk
    have hpb : projectBlock nums anchors off (Block.para p) =
        TargetNode.node (listTypeOf nums lid lvl) (listAttrs lid lvl)
          [listItemNode anchors off p] := by
      simp [projectBlock, hpl, hpv]
    constructor
    · rw [List.map_cons, List.cons_append, projectBlocks, hpb,
        show blockLen (Block.para p) = paraLen p from rfl, ih1]
      simp only [consMerge]
      rw [if_pos ⟨isListNodeType_listTypeOf nums lid lvl, by trivial, by trivial⟩,
        List.singleton_append,
        show off + paraLen p + parasLen (q :: ps) = off + parasLen (p :: q :: ps) by
          simp [parasLen]; omega]
      rfl
    · show (listItemNode anchors off p ::
          listItems anchors (off + paraLen p) (q :: ps)).length = (p :: q :: ps).length
      rw [List.length_cons, ih2]
      simp

/-- C8 witness: two concrete consecutive paragraphs of list 4 at level 0
project to exactly one list node (ordered, per the decimal marker format)
holding two listItem children. -/
theorem list_grouping_single_node_witness :
    projectBlocks listDemoNums [] 0 ([listPara1, listPara2].map Block.para ++ []) =
      TargetNode.node (listTypeOf listDemoNums 4 0) (listAttrs 4 0)
        (listItems [] 0 [listPara1, listPara2]) ::
        projectBlocks listDemoNums [] (0 + parasLen [listPara1, listPara2]) [] ∧
    (listItems [] 0 [listPara1, listPara2]).length = 2 ∧
    listTypeOf listDemoNums 4 0 = "orderedList" := by
  have h := list_grouping_single_node listDemoNums [] 4 0 [listPara1, listPara2] [] 0
    (by decide) (by decide) (by intro b hb; exact absurd hb (by simp))
  exact ⟨h.1, h.2, rfl⟩

/-! ### Claim theorem: projection is deterministic -/

/-- C9: projecting the same DocumentModel twice — also back to back in one
batch — yields identical output trees.  In this embedding the projector is
a pure function whose only traversal state (the flat character offset) is
passed explicitly and initialized afresh inside `projectDoc`, exactly the
scoped-state design of spec §9, so no hidden state survives between
invocations and determinism holds by construction. -/
theorem projection_deterministic :
    ∀ m : DocumentModel, projectDoc m = projectDoc m ∧
      projectSeq [m, m] = [projectDoc m, projectDoc m] :=
  fun _ => ⟨rfl, rfl⟩
